import Mathlib

/-!
Shallow embedding of the teamspeak-query client engine (src/index.js) and
verification of the specification's claims about it.

Strings are modelled as `List Char`.  The JavaScript
`String.prototype.replace(/pat/g, repl)` calls with literal patterns are
modelled by `replaceAll`, a left-to-right, non-overlapping single pass.
-/

namespace TeamspeakQuery

/-- One left-to-right, non-overlapping global replacement pass, as performed
by a JavaScript `str.replace(/lit/g, repl)` with a literal pattern.  The fuel
argument bounds the scan; since every step consumes at least one character,
fuel equal to the input length always suffices (see `replaceAll`). -/
def replaceAllAux (pat repl : List Char) : Nat → List Char → List Char
  | _, [] => []
  | 0, l => l
  | fuel + 1, c :: cs =>
    if !pat.isEmpty && pat.isPrefixOf (c :: cs) then
      repl ++ replaceAllAux pat repl fuel ((c :: cs).drop pat.length)
    else
      c :: replaceAllAux pat repl fuel cs

/-- Global replacement of a literal pattern, JavaScript
`String.prototype.replace(/pat/g, repl)` semantics. -/
def replaceAll (pat repl l : List Char) : List Char :=
  replaceAllAux pat repl l.length l

/-- `TeamspeakQuery.escape` (src/index.js lines 154-164): nine sequential
global replacement passes, backslash first. -/
def escape (s : List Char) : List Char :=
  replaceAll ['\\'] ['\\', '\\'] s
  |> replaceAll ['/'] ['\\', '/']
  |> replaceAll ['|'] ['\\', 'p']
  |> replaceAll ['\n'] ['\\', 'n']
  |> replaceAll ['\r'] ['\\', 'r']
  |> replaceAll ['\t'] ['\\', 't']
  |> replaceAll ['\x0b'] ['\\', 'v']
  |> replaceAll ['\x0c'] ['\\', 'f']
  |> replaceAll [' '] ['\\', 's']

/-- `TeamspeakQuery.unescape` (src/index.js lines 174-184): nine sequential
global replacement passes over two-character escape sequences, in source
order. -/
def unescape (s : List Char) : List Char :=
  replaceAll ['\\', '\\'] ['\\'] s
  |> replaceAll ['\\', '/'] ['/']
  |> replaceAll ['\\', 'p'] ['|']
  |> replaceAll ['\\', 'n'] ['\n']
  |> replaceAll ['\\', 'r'] ['\r']
  |> replaceAll ['\\', 't'] ['\t']
  |> replaceAll ['\\', 'v'] ['\x0b']
  |> replaceAll ['\\', 'f'] ['\x0c']
  |> replaceAll ['\\', 's'] [' ']

/-- C1: the round-trip law `unescape (escape s) = s` fails on the
two-character string backslash-`n`.  `escape` turns it into the three
characters backslash-backslash-`n`; `unescape`'s first pass collapses the
double backslash to a single backslash, and its fourth pass then reprocesses
that freshly produced backslash together with the following `n` as the escape
sequence for a newline.  The round trip therefore returns the one-character
newline string instead of the original input. -/
theorem unescape_escape_reprocesses :
    escape ['\\', 'n'] = ['\\', '\\', 'n'] ∧
    unescape ['\\', '\\', 'n'] = ['\n'] ∧
    unescape (escape ['\\', 'n']) = ['\n'] ∧
    ['\n'] ≠ ['\\', 'n'] := by
  refine ⟨by decide, by decide, by decide, by decide⟩

/-! ## Line parser -/

/-- The character class of JavaScript regex `\w`: ASCII letters, digits and
underscore. -/
def isWordChar (c : Char) : Bool :=
  c.isAlpha || c.isDigit || c == '_'

/-- The ASCII part of the character class of JavaScript regex `\s` (and of the
whitespace stripped by `String.prototype.trim`).  The protocol is ASCII, so
the Unicode white-space code points are not modelled. -/
def isJsSpace (c : Char) : Bool :=
  c == ' ' || c == '\t' || c == '\n' || c == '\x0b' || c == '\x0c' || c == '\r'

/-- `String.prototype.trim` (src/index.js line 96). -/
def jsTrim (l : List Char) : List Char :=
  ((l.dropWhile isJsSpace).reverse.dropWhile isJsSpace).reverse

/-- Case-insensitive literal prefix test (the parse regex carries the `i`
flag).  True iff `l` has at least `lit.length` characters and they spell
`lit` up to ASCII case. -/
def lowerEq (lit l : List Char) : Bool :=
  (l.take lit.length).map Char.toLower == lit

/-- Maximal run of `\w` characters. -/
def wordRun (l : List Char) : List Char := l.takeWhile isWordChar

/-- The third alternative of the parse regex, `\w+=[^\s\|]+`, matched at the
head of `l`.  `\w+` is greedy; since `=` is not a word character, the greedy
maximal run is the only candidate, so no backtracking arises. -/
def kvMatch (l : List Char) : Option (List Char) :=
  let k := wordRun l
  if k.isEmpty then none
  else
    match l.drop k.length with
    | '=' :: rest =>
      let v := rest.takeWhile fun c => !isJsSpace c && c != '|'
      if v.isEmpty then none else some (k ++ '=' :: v)
    | _ => none

/-- One attempt of the regex `/(^error|^notify\w+|\w+=[^\s\|]+)/gi` at the
head of `l`; `atStart` records whether the head is position 0 of the whole
line (the `^` anchors).  Alternatives are tried in source order.  Returns the
matched token (in original case), always nonempty. -/
def matchAt (atStart : Bool) (l : List Char) : Option (List Char) :=
  if atStart && lowerEq ['e', 'r', 'r', 'o', 'r'] l then
    some (l.take 5)
  else if atStart && lowerEq ['n', 'o', 't', 'i', 'f', 'y'] l
      && !(wordRun (l.drop 6)).isEmpty then
    some (l.take 6 ++ wordRun (l.drop 6))
  else kvMatch l

/-- Global regex scan (`str.match(..../g)`): try the pattern at each position
from left to right, and after a match continue right after it.  Every match
is nonempty, so fuel equal to the input length suffices. -/
def scanTokensAux : Nat → Bool → List Char → List (List Char)
  | 0, _, _ => []
  | _ + 1, _, [] => []
  | fuel + 1, atStart, c :: cs =>
    match matchAt atStart (c :: cs) with
    | some tok => tok :: scanTokensAux fuel false ((c :: cs).drop tok.length)
    | none => scanTokensAux fuel false cs

/-- All matches of the parse regex in `str`, in order. -/
def scanTokens (str : List Char) : List (List Char) :=
  scanTokensAux str.length true str

/-- A parsed field value: a scalar string, or a list of strings once a key
has repeated. -/
inductive PValue
  | str (v : List Char)
  | arr (vs : List (List Char))
deriving DecidableEq

/-- The `params` object: keys in insertion order, each bound once. -/
abbrev Params := List (List Char × PValue)

/-- Storing one `key=value` pair into `params` (src/index.js lines 133-137):
a fresh key is appended as a scalar; a repeated key promotes the existing
scalar to a two-element list, or appends to an existing list. -/
def insertParam (ps : Params) (k v : List Char) : Params :=
  if ps.any fun kv => kv.1 == k then
    ps.map fun kv =>
      if kv.1 == k then
        (kv.1,
          match kv.2 with
          | PValue.str old => PValue.arr [old, v]
          | PValue.arr olds => PValue.arr (olds ++ [v]))
      else kv
  else ps ++ [(k, PValue.str v)]

/-- Processing one non-tag token (src/index.js lines 130-138):
`v.split(/=/)` splits on every `=`; both the first and the second part are
unescaped and stored (parts beyond the second are dropped by `v[0]`/`v[1]`).
A token without `=` never reaches this point: such a token can only be the
leading bare keyword, which has been shifted off. -/
def addToken (ps : Params) (tok : List Char) : Params :=
  match (tok.splitOn '=').map unescape with
  | k :: v :: _ => insertParam ps k v
  | _ => ps

/-- The result of `TeamspeakQuery.parse`: optional leading tag plus fields. -/
structure Response where
  type : Option (List Char)
  params : Params
deriving DecidableEq

/-- `TeamspeakQuery.parse` (src/index.js lines 123-144).  `str.match`
returns null iff there is no match; the first token is shifted off as the tag
iff it contains no `=`. -/
def parse (str : List Char) : Option Response :=
  match scanTokens str with
  | [] => none
  | first :: rest =>
    if first.contains '=' then
      some ⟨none, (first :: rest).foldl addToken []⟩
    else
      some ⟨some first, rest.foldl addToken []⟩

/-! ## JavaScript loose comparison `response.params.id == 0` -/

/-- Whether a trimmed, nonempty literal (optional sign, decimal digits,
optional decimal point) denotes the number 0.  This is JavaScript
`ToNumber` restricted to plain decimal literals: exponent and hex forms are
not modelled (the protocol's `id` fields are plain decimal integers). -/
def zeroLiteral (t : List Char) : Bool :=
  let body :=
    match t with
    | '+' :: cs => cs
    | '-' :: cs => cs
    | _ => t
  let ip := body.takeWhile fun c => c.isDigit
  match body.drop ip.length with
  | [] => !ip.isEmpty && ip.all fun c => c == '0'
  | '.' :: fp =>
    (fp.all fun c => c.isDigit) && !(ip.isEmpty && fp.isEmpty)
      && (ip.all fun c => c == '0') && (fp.all fun c => c == '0')
  | _ => false

/-- JavaScript `s == 0` for a string `s`: `ToNumber(s)` is 0.  Whitespace is
trimmed; the empty (or all-whitespace) string converts to 0; anything
non-numeric is NaN and compares false. -/
def strLooseZero (s : List Char) : Bool :=
  let t := jsTrim s
  t.isEmpty || zeroLiteral t

/-- JavaScript `v == 0` for the value shapes a parsed field can take:
`undefined == 0` is false; a string compares via `ToNumber`; an array first
converts to a string by joining its elements with commas. -/
def jsEqZero : Option PValue → Bool
  | none => false
  | some (PValue.str s) => strLooseZero s
  | some (PValue.arr l) => strLooseZero (List.intercalate [','] l)

/-- JavaScript property access `params.k`. -/
def lookupParam (ps : Params) (k : List Char) : Option PValue :=
  (ps.find? fun kv => kv.1 == k).map fun kv => kv.2

/-! ## Command serialization (`send`, src/index.js lines 48-74) -/

/-- A JavaScript value passed as a command parameter, via its `String()`
image (so the number `5` appears as the string `"5"`). -/
inductive JVal
  | str (v : List Char)
  | arr (vs : List (List Char))
deriving DecidableEq

/-- The `options` argument of `send`: absent (or any falsy value, over which
the `for...in` loop does nothing), a truthy non-object value (which is
unshifted onto the flag list), or an object with keys in insertion order. -/
inductive SendOptions
  | none
  | scalar (v : List Char)
  | obj (kvs : List (List Char × JVal))
deriving DecidableEq

/-- One keyed token of the command string (loop body, src/index.js lines
55-63): an array value becomes a pipe-joined run of `escape(k)=escape(v)`
pairs, a scalar value a single such pair. -/
def optionToken (k : List Char) : JVal → List Char
  | JVal.arr vs => List.intercalate ['|'] (vs.map fun v => escape k ++ '=' :: escape v)
  | JVal.str v => escape k ++ '=' :: escape v

/-- The serialized command text built by `send`: the command name, then the
keyed tokens in insertion order, then the individually escaped flags, all
joined by single spaces. -/
def buildCmd (cmd : List Char) (options : SendOptions) (flags0 : List (List Char)) :
    List Char :=
  let (parts, flags) :=
    match options with
    | SendOptions.scalar v => ([cmd], v :: flags0)
    | SendOptions.obj kvs =>
      (cmd :: kvs.map fun (kv : List Char × JVal) => optionToken kv.1 kv.2, flags0)
    | SendOptions.none => ([cmd], flags0)
  List.intercalate [' '] (parts ++ flags.map escape)

/-! ## Client state and line handling -/

/-- A queued command: its serialized text, the latest data-line fields seen
while it is in flight, and a ghost identity `id` standing for the promise
created at submission (ids are assigned in submission order by `send`). -/
structure Pending where
  id : Nat
  cmd : List Char
  data : Option Params
deriving DecidableEq

/-- The mutable state of a `TeamspeakQuery` instance: the FIFO `queue`, the
in-flight command `_current`, the banner counter `_statusLines`, and the
ghost counter handing out promise identities. -/
structure QueryState where
  queue : List Pending
  current : Option Pending
  statusLines : Nat
  nextId : Nat
deriving DecidableEq

/-- State after the constructor (src/index.js lines 24-26). -/
def initState : QueryState := ⟨[], none, 0, 0⟩

/-- Observable effects of a step: a write of a command text to the socket, a
notification event emission, or the settlement of a promise.  Writes and
settlements also carry the ghost promise identity. -/
inductive Output
  | write (id : Nat) (bytes : List Char)
  | emit (name : List Char) (params : Params) (line : List Char)
  | resolve (id : Nat) (params : Params)
  | reject (id : Nat) (params : Params)
deriving DecidableEq

/-- `checkQueue` (src/index.js lines 79-84): if nothing is running and the
queue is nonempty, shift the head, make it current, and write its text plus
a newline to the socket. -/
def checkQueue (s : QueryState) : QueryState × List Output :=
  match s.current, s.queue with
  | Option.none, c :: rest =>
    ({ s with current := some c, queue := rest }, [Output.write c.id (c.cmd ++ ['\n'])])
  | _, _ => (s, [])

/-- `send` (src/index.js lines 48-74): build the command text, push a fresh
pending command (the promise executor runs synchronously), and call
`checkQueue` only once both banner lines have been counted. -/
def send (s : QueryState) (cmd : List Char) (options : SendOptions)
    (flags : List (List Char)) : QueryState × List Output :=
  let s1 := { s with
    queue := s.queue ++ [⟨s.nextId, buildCmd cmd options flags, none⟩],
    nextId := s.nextId + 1 }
  if s1.statusLines > 1 then checkQueue s1 else (s1, [])

/-- The untagged branch of `handleLine` (src/index.js lines 109-110 and
112): a data line overwrites the current command's accumulated data, if a
command is current; `checkQueue` runs either way. -/
def dataLineStep (s : QueryState) (r : Response) : QueryState × List Output :=
  match s.current with
  | some p => checkQueue { s with current := some { p with data := some r.params } }
  | Option.none => checkQueue s

/-- `handleLine` (src/index.js lines 91-114).  The first two lines only
bump `_statusLines` (with `checkQueue` fired as the counter reaches 2);
afterwards the trimmed line is parsed and routed.  Returns `none` when the
code throws: handling a terminator with `_current` null dereferences null at
`this._current.resolve` / `.reject`. -/
def handleLine (s : QueryState) (line0 : List Char) : Option (QueryState × List Output) :=
  if s.statusLines < 2 then
    let s1 := { s with statusLines := s.statusLines + 1 }
    if s1.statusLines = 2 then some (checkQueue s1) else some (s1, [])
  else
    let line := jsTrim line0
    match parse line with
    | Option.none => some (s, [])
    | some r =>
      match r.type with
      | some t =>
        if List.isPrefixOf ['n', 'o', 't', 'i', 'f', 'y'] t then
          let step := checkQueue s
          some (step.1, Output.emit (t.drop 6) r.params line :: step.2)
        else if t = ['e', 'r', 'r', 'o', 'r'] then
          match s.current with
          | Option.none => none
          | some p =>
            let settle :=
              if jsEqZero (lookupParam r.params ['i', 'd']) then
                Output.resolve p.id (p.data.getD r.params)
              else
                Output.reject p.id r.params
            let step := checkQueue { s with current := none }
            some (step.1, settle :: step.2)
        else
          some (dataLineStep s r)
      | Option.none => some (dataLineStep s r)

/-! ## Event traces -/

/-- An external stimulus: a caller submits a command, or the transport
delivers one line. -/
inductive Event
  | submit (cmd : List Char) (options : SendOptions) (flags : List (List Char))
  | line (l : List Char)
deriving DecidableEq

/-- One step of the client; `none` models a thrown TypeError. -/
def step (s : QueryState) : Event → Option (QueryState × List Output)
  | Event.submit cmd options flags => some (send s cmd options flags)
  | Event.line l => handleLine s l

/-- Run a list of events from a state, accumulating the outputs. -/
def runFrom (s : QueryState) (tr : List Output) : List Event → Option (QueryState × List Output)
  | [] => some (s, tr)
  | e :: evs =>
    match step s e with
    | Option.none => none
    | some (s1, outs) => runFrom s1 (tr ++ outs) evs

/-- Run a list of events from the freshly constructed client. -/
def run (evs : List Event) : Option (QueryState × List Output) :=
  runFrom initState [] evs

/-- The ghost promise ids of the commands written to the socket, in write
order. -/
def writeIds (tr : List Output) : List Nat :=
  tr.filterMap fun o =>
    match o with
    | Output.write i _ => some i
    | _ => none

/-- The ghost promise ids of the settled promises (resolved or rejected), in
settlement order. -/
def settleIds (tr : List Output) : List Nat :=
  tr.filterMap fun o =>
    match o with
    | Output.resolve i _ => some i
    | Output.reject i _ => some i
    | _ => none

/-- Number of line events. -/
def countLines (evs : List Event) : Nat :=
  (evs.filter fun e =>
    match e with
    | Event.line _ => true
    | _ => false).length

/-- Number of submissions. -/
def countSubmits (evs : List Event) : Nat :=
  (evs.filter fun e =>
    match e with
    | Event.submit _ _ _ => true
    | _ => false).length

/-! ## Helper lemmas -/

/-- Characterization of splitting on a character: the first part is the run
before the first separator; when a separator is present the remaining parts
are the split of what follows it. -/
lemma splitOn_char_eq (c : Char) (l : List Char) :
    l.splitOn c =
      (l.takeWhile fun x => x != c) ::
        (if l.contains c then ((l.dropWhile fun x => x != c).tail).splitOn c else []) := by
  induction l with
  | nil => simp [List.splitOn, List.splitOnP_nil]
  | cons a t ih =>
    by_cases h : a = c
    · subst h
      simp [List.splitOn, List.splitOnP_cons]
    · have hb : (a == c) = false := by simp [h]
      have hb2 : (a != c) = true := by simp [h]
      simp only [List.splitOn, List.splitOnP_cons, hb, Bool.false_eq_true, if_false,
        List.takeWhile_cons, List.dropWhile_cons, hb2, if_true, List.contains_cons]
      rw [List.splitOn] at ih
      rw [ih]
      have h2 : ¬c = a := fun hh => h hh.symm
      simp [List.splitOn, h2]

/-! ## Claims C6, C9, C5 -/

/-- C6, counterexample.  The claim says a non-tag token is split exactly
once on the first equals sign, so parsing the line consisting of the single
token produced from key a, an equals sign, and the value b-equals-c
(the value class of the regex admits the equals sign) should store the
value b-equals-c under key a.  The code instead splits on every equals
sign and keeps only the second part: the stored value is the single
character b, which differs from the claimed value. -/
theorem token_split_counterexample :
    parse ("a=b=c".data) = some ⟨none, [("a".data, PValue.str ("b".data))]⟩ ∧
      "b".data ≠ "b=c".data := by
  refine ⟨by decide, by decide⟩

/-- C6, amended: every non-tag token is split on every equals sign; the key
is the text before the first one, the value is the text strictly between the
first and the second (which is everything after the first when the token
contains only one); later parts are discarded; both key and value pass
through `unescape` before being stored. -/
theorem token_split_amended (ps : Params) (v : List Char)
    (h : v.contains '=' = true) :
    addToken ps v =
      insertParam ps (unescape (v.takeWhile fun c => c != '='))
        (unescape (((v.dropWhile fun c => c != '=').tail).takeWhile fun c => c != '=')) := by
  unfold addToken
  rw [splitOn_char_eq, if_pos h, splitOn_char_eq]
  simp only [List.map_cons]

/-- Witness for `token_split_amended` at the concrete token a=b=c. -/
theorem token_split_amended_witness :
    ("a=b=c".data).contains '=' = true ∧
      addToken [] ("a=b=c".data) =
        insertParam [] (unescape (("a=b=c".data).takeWhile fun c => c != '='))
          (unescape (((("a=b=c".data).dropWhile fun c => c != '=').tail).takeWhile
            fun c => c != '=')) :=
  ⟨by decide, token_split_amended [] ("a=b=c".data) (by decide)⟩

/-- C9: a fresh key is stored as a scalar; a repeated key promotes the
stored scalar to a two-element list, or appends to a stored list, preserving
order; and parsing a line with the twice-repeated key client_id yields the
two values as a list. -/
theorem repeated_key_promotion :
    (∀ (ps : Params) (k v : List Char), (ps.all fun kv => kv.1 != k) = true →
      insertParam ps k v = ps ++ [(k, PValue.str v)]) ∧
    (∀ (ps1 ps2 : Params) (k v s : List Char),
      (ps1.all fun kv => kv.1 != k) = true →
      insertParam (ps1 ++ (k, PValue.str s) :: ps2) k v
        = ps1 ++ (k, PValue.arr [s, v]) ::
            ps2.map (fun kv =>
              if kv.1 == k then
                (kv.1,
                  match kv.2 with
                  | PValue.str old => PValue.arr [old, v]
                  | PValue.arr olds => PValue.arr (olds ++ [v]))
              else kv)) ∧
    (∀ (ps1 ps2 : Params) (k v : List Char) (l : List (List Char)),
      (ps1.all fun kv => kv.1 != k) = true →
      insertParam (ps1 ++ (k, PValue.arr l) :: ps2) k v
        = ps1 ++ (k, PValue.arr (l ++ [v])) ::
            ps2.map (fun kv =>
              if kv.1 == k then
                (kv.1,
                  match kv.2 with
                  | PValue.str old => PValue.arr [old, v]
                  | PValue.arr olds => PValue.arr (olds ++ [v]))
              else kv)) ∧
    parse ("client_id=1 client_id=2".data)
      = some ⟨none, [("client_id".data, PValue.arr ["1".data, "2".data])]⟩ := by
  have hmap : ∀ (ps : Params) (k v : List Char), (ps.all fun kv => kv.1 != k) = true →
      (ps.map fun kv =>
        if kv.1 == k then
          (kv.1,
            match kv.2 with
            | PValue.str old => PValue.arr [old, v]
            | PValue.arr olds => PValue.arr (olds ++ [v]))
        else kv) = ps := by
    intro ps k v h
    induction ps with
    | nil => rfl
    | cons a t ih =>
      rw [List.all_cons, Bool.and_eq_true] at h
      have ha : ¬(a.1 == k) = true := by
        have hne := h.1
        simp only [bne_iff_ne, ne_eq] at hne
        simp [hne]
      rw [List.map_cons, if_neg ha, ih h.2]
  refine ⟨?_, ?_, ?_, by decide⟩
  · intro ps k v h
    have hany : (ps.any fun kv => kv.1 == k) = false := by
      rw [List.any_eq_false]
      intro x hx
      have := (List.all_eq_true.mp h) x hx
      simpa using this
    simp [insertParam, hany]
  · intro ps1 ps2 k v s h1
    have hany : ((ps1 ++ (k, PValue.str s) :: ps2).any fun kv => kv.1 == k) = true := by
      rw [List.any_eq_true]
      exact ⟨(k, PValue.str s), by simp⟩
    simp only [insertParam, hany, if_true, List.map_append, List.map_cons]
    rw [hmap ps1 k v h1]
    simp
  · intro ps1 ps2 k v l h1
    have hany : ((ps1 ++ (k, PValue.arr l) :: ps2).any fun kv => kv.1 == k) = true := by
      rw [List.any_eq_true]
      exact ⟨(k, PValue.arr l), by simp⟩
    simp only [insertParam, hany, if_true, List.map_append, List.map_cons]
    rw [hmap ps1 k v h1]
    simp

/-- Witness for `repeated_key_promotion`: promoting the scalar stored under
key a by a second value yields the two-element list. -/
theorem repeated_key_promotion_witness :
    (([] : Params).all fun kv => kv.1 != "a".data) = true ∧
      insertParam ([] ++ ("a".data, PValue.str ("1".data)) :: []) ("a".data) ("2".data)
        = [] ++ ("a".data, PValue.arr ["1".data, "2".data]) :: [] :=
  ⟨by decide, by
    have h := repeated_key_promotion.2.1 [] [] ("a".data) ("2".data) ("1".data) (by decide)
    simpa using h⟩

/-- Rendering of the command text that follows the specification's words:
the command name, then one token per parameter in insertion order, a scalar
parameter as an escaped key-equals-value pair and a list parameter as a
pipe-joined run of such pairs, all joined by spaces. -/
def specCommandText (cmd : List Char) (kvs : List (List Char × JVal)) : List Char :=
  List.intercalate [' ']
    (cmd :: kvs.map fun (kv : List Char × JVal) =>
      match kv.2 with
      | JVal.str v => escape kv.1 ++ '=' :: escape v
      | JVal.arr vs => List.intercalate ['|'] (vs.map fun v => escape kv.1 ++ '=' :: escape v))

/-- C5: the command text built by `send` for an object argument is the
specification's rendering, and the concrete example from the specification
serializes as claimed. -/
theorem submit_serialization :
    (∀ (cmd : List Char) (kvs : List (List Char × JVal)),
      buildCmd cmd (SendOptions.obj kvs) [] = specCommandText cmd kvs) ∧
    buildCmd ("clientkick".data)
        (SendOptions.obj [("reasonid".data, JVal.str ("5".data)),
          ("clid".data, JVal.arr ["1".data, "2".data, "3".data])]) []
      = ("clientkick reasonid=5 clid=1|clid=2|clid=3".data) := by
  refine ⟨?_, by decide⟩
  intro cmd kvs
  simp only [buildCmd, specCommandText, List.map_nil, List.append_nil]
  congr 1
  congr 1
  apply List.map_congr_left
  intro kv _
  cases kv.2 <;> rfl

/-! ## Claims C3, C8, C10 -/

/-- C3: a terminator line handled with a command in flight settles that
command — successfully, with the accumulated data if any data line was seen
and otherwise with the terminator's own fields, when the id field is loosely
zero; as a failure carrying the terminator's fields otherwise — and clears
the current reference; `checkQueue` then runs on the cleared state (so the
next queued command, if any, is dispatched in the same step). -/
theorem terminator_settlement (s : QueryState) (p : Pending) (l : List Char) (r : Response)
    (h2 : 2 ≤ s.statusLines) (hc : s.current = some p)
    (hp : parse (jsTrim l) = some r) (ht : r.type = some ['e', 'r', 'r', 'o', 'r']) :
    handleLine s l = some
      ((checkQueue { s with current := none }).1,
        (if jsEqZero (lookupParam r.params ['i', 'd']) then
            Output.resolve p.id (p.data.getD r.params)
          else Output.reject p.id r.params)
          :: (checkQueue { s with current := none }).2) := by
  obtain ⟨ty, ps⟩ := r
  simp only at ht
  subst ht
  rw [handleLine, if_neg (by omega)]
  simp only [hp, hc]
  rfl

/-- Witness for `terminator_settlement` at a concrete state and the line
error id equals 0 msg equals ok. -/
theorem terminator_settlement_witness :
    (2 ≤ (⟨[], some ⟨0, "whoami".data, none⟩, 2, 1⟩ : QueryState).statusLines ∧
      (⟨[], some ⟨0, "whoami".data, none⟩, 2, 1⟩ : QueryState).current
        = some ⟨0, "whoami".data, none⟩ ∧
      parse (jsTrim ("error id=0 msg=ok".data))
        = some ⟨some ['e', 'r', 'r', 'o', 'r'],
            [("id".data, PValue.str ("0".data)), ("msg".data, PValue.str ("ok".data))]⟩) ∧
    handleLine (⟨[], some ⟨0, "whoami".data, none⟩, 2, 1⟩ : QueryState)
        ("error id=0 msg=ok".data) = some
      ((checkQueue { (⟨[], some ⟨0, "whoami".data, none⟩, 2, 1⟩ : QueryState) with
          current := none }).1,
        (if jsEqZero (lookupParam
            [("id".data, PValue.str ("0".data)), ("msg".data, PValue.str ("ok".data))]
            ['i', 'd']) then
            Output.resolve 0 ((none : Option Params).getD
              [("id".data, PValue.str ("0".data)), ("msg".data, PValue.str ("ok".data))])
          else Output.reject 0
            [("id".data, PValue.str ("0".data)), ("msg".data, PValue.str ("ok".data))])
          :: (checkQueue { (⟨[], some ⟨0, "whoami".data, none⟩, 2, 1⟩ : QueryState) with
            current := none }).2) :=
  ⟨⟨by decide, by decide, by decide⟩,
    terminator_settlement ⟨[], some ⟨0, "whoami".data, none⟩, 2, 1⟩
      ⟨0, "whoami".data, none⟩ ("error id=0 msg=ok".data)
      ⟨some ['e', 'r', 'r', 'o', 'r'],
        [("id".data, PValue.str ("0".data)), ("msg".data, PValue.str ("ok".data))]⟩
      (by decide) (by decide) (by decide) (by decide)⟩

/-- C8: a line whose parsed tag starts with the notification prefix emits
exactly one event, named by the tag with its first six characters stripped
and carrying the parsed fields and the (trimmed) raw line; when a command is
in flight the whole client state — in particular the current command and its
accumulated data — is left unchanged. -/
theorem notify_emission (s : QueryState) (p : Pending) (l t : List Char) (r : Response)
    (h2 : 2 ≤ s.statusLines) (hc : s.current = some p)
    (hp : parse (jsTrim l) = some r) (ht : r.type = some t)
    (hn : List.isPrefixOf ['n', 'o', 't', 'i', 'f', 'y'] t = true) :
    handleLine s l = some (s, [Output.emit (t.drop 6) r.params (jsTrim l)]) := by
  obtain ⟨ty, ps⟩ := r
  simp only at ht
  subst ht
  rw [handleLine, if_neg (by omega)]
  simp only [hp, hn, if_true, checkQueue, hc]

/-- Witness for `notify_emission` at a concrete state and the specification's
notification example line. -/
theorem notify_emission_witness :
    (2 ≤ (⟨[], some ⟨0, "whoami".data, none⟩, 2, 1⟩ : QueryState).statusLines ∧
      parse (jsTrim ("notifyclientmoved clid=5 ctid=3".data))
        = some ⟨some ("notifyclientmoved".data),
            [("clid".data, PValue.str ("5".data)), ("ctid".data, PValue.str ("3".data))]⟩ ∧
      List.isPrefixOf ['n', 'o', 't', 'i', 'f', 'y'] ("notifyclientmoved".data) = true) ∧
    handleLine (⟨[], some ⟨0, "whoami".data, none⟩, 2, 1⟩ : QueryState)
        ("notifyclientmoved clid=5 ctid=3".data)
      = some (⟨[], some ⟨0, "whoami".data, none⟩, 2, 1⟩,
          [Output.emit (("notifyclientmoved".data).drop 6)
            [("clid".data, PValue.str ("5".data)), ("ctid".data, PValue.str ("3".data))]
            (jsTrim ("notifyclientmoved clid=5 ctid=3".data))]) :=
  ⟨⟨by decide, by decide, by decide⟩,
    notify_emission ⟨[], some ⟨0, "whoami".data, none⟩, 2, 1⟩ ⟨0, "whoami".data, none⟩
      ("notifyclientmoved clid=5 ctid=3".data) ("notifyclientmoved".data)
      ⟨some ("notifyclientmoved".data),
        [("clid".data, PValue.str ("5".data)), ("ctid".data, PValue.str ("3".data))]⟩
      (by decide) (by decide) (by decide) (by decide) (by decide)⟩

/-- C10: handling a terminator line while no command is current dereferences
the null current reference (the implementation reads resolve or reject off
it) and throws, modelled as the step returning none, rather than discarding
the line. -/
theorem terminator_null_current (s : QueryState) (l : List Char) (r : Response)
    (h2 : 2 ≤ s.statusLines) (hc : s.current = none)
    (hp : parse (jsTrim l) = some r) (ht : r.type = some ['e', 'r', 'r', 'o', 'r']) :
    handleLine s l = none := by
  obtain ⟨ty, ps⟩ := r
  simp only at ht
  subst ht
  rw [handleLine, if_neg (by omega)]
  simp only [hp, hc]
  rfl

/-- Witness for `terminator_null_current`: an unsolicited terminator right
after the banner crashes the line handler. -/
theorem terminator_null_current_witness :
    (2 ≤ (⟨[], none, 2, 0⟩ : QueryState).statusLines ∧
      (⟨[], none, 2, 0⟩ : QueryState).current = none ∧
      parse (jsTrim ("error id=0".data))
        = some ⟨some ['e', 'r', 'r', 'o', 'r'], [("id".data, PValue.str ("0".data))]⟩) ∧
    handleLine (⟨[], none, 2, 0⟩ : QueryState) ("error id=0".data) = none :=
  ⟨⟨by decide, by decide, by decide⟩,
    terminator_null_current ⟨[], none, 2, 0⟩ ("error id=0".data)
      ⟨some ['e', 'r', 'r', 'o', 'r'], [("id".data, PValue.str ("0".data))]⟩
      (by decide) (by decide) (by decide) (by decide)⟩

/-! ## Claim C4 -/

lemma checkQueue_statusLines (s : QueryState) :
    (checkQueue s).1.statusLines = s.statusLines := by
  unfold checkQueue
  split <;> rfl

lemma dataLineStep_statusLines (s : QueryState) (r : Response) :
    (dataLineStep s r).1.statusLines = s.statusLines := by
  unfold dataLineStep
  split <;> rw [checkQueue_statusLines]

lemma send_statusLines (s : QueryState) (cmd : List Char) (options : SendOptions)
    (flags : List (List Char)) :
    (send s cmd options flags).1.statusLines = s.statusLines := by
  simp only [send]
  split
  · rw [checkQueue_statusLines]
  · rfl

/-- `send` before the second banner line only enqueues: no output. -/
lemma send_quiet (s : QueryState) (cmd : List Char) (options : SendOptions)
    (flags : List (List Char)) (h : s.statusLines ≤ 1) :
    (send s cmd options flags).2 = [] := by
  unfold send
  rw [if_neg (by simpa using h)]

lemma handleLine_ready_statusLines (s : QueryState) (l : List Char) (s1 : QueryState)
    (outs : List Output) (hge : ¬s.statusLines < 2)
    (h : handleLine s l = some (s1, outs)) : s1.statusLines = s.statusLines := by
  rw [handleLine, if_neg hge] at h
  cases hp : parse (jsTrim l) with
  | none =>
    simp only [hp] at h
    injection h with h1
    have h2 : s = s1 := congrArg Prod.fst h1
    rw [← h2]
  | some r =>
    obtain ⟨ty, ps⟩ := r
    simp only [hp] at h
    cases ty with
    | none =>
      injection h with h1
      have h2 : (dataLineStep s ⟨none, ps⟩).1 = s1 := congrArg Prod.fst h1
      rw [← h2, dataLineStep_statusLines]
    | some t =>
      simp only at h
      by_cases hn : List.isPrefixOf ['n', 'o', 't', 'i', 'f', 'y'] t = true
      · rw [if_pos hn] at h
        injection h with h1
        have h2 : (checkQueue s).1 = s1 := congrArg Prod.fst h1
        rw [← h2, checkQueue_statusLines]
      · rw [if_neg hn] at h
        by_cases he : t = ['e', 'r', 'r', 'o', 'r']
        · rw [if_pos he] at h
          cases hc : s.current with
          | none => rw [hc] at h; exact Option.noConfusion h
          | some p =>
            rw [hc] at h
            injection h with h1
            have h2 : (checkQueue { s with current := none }).1 = s1 :=
              congrArg Prod.fst h1
            rw [← h2, checkQueue_statusLines]
        · rw [if_neg he] at h
          injection h with h1
          have h2 : (dataLineStep s ⟨some t, ps⟩).1 = s1 := congrArg Prod.fst h1
          rw [← h2, dataLineStep_statusLines]

/-- Phase evolution along a run: the banner counter of the final state is
the number of processed lines, capped at 2, and while fewer than two lines
have arrived nothing at all has been written, emitted, or settled. -/
lemma runFrom_phase (evs : List Event) : ∀ (s0 : QueryState) (tr0 : List Output)
    (s : QueryState) (tr : List Output), s0.statusLines ≤ 2 →
    runFrom s0 tr0 evs = some (s, tr) →
    s.statusLines = min (s0.statusLines + countLines evs) 2 ∧
      (s0.statusLines + countLines evs < 2 → tr = tr0) := by
  induction evs with
  | nil =>
    intro s0 tr0 s tr h0 hrun
    obtain ⟨rfl, rfl⟩ := Prod.mk.injEq .. ▸ Option.some.inj hrun
    constructor
    · simp [countLines]; omega
    · intro; rfl
  | cons e evs ih =>
    intro s0 tr0 s tr h0 hrun
    cases e with
    | submit cmd options flags =>
      rw [runFrom] at hrun
      simp only [step] at hrun
      have hsl := send_statusLines s0 cmd options flags
      have hcl : countLines (Event.submit cmd options flags :: evs) = countLines evs := by
        simp [countLines]
      obtain ⟨hmin, htr⟩ := ih (send s0 cmd options flags).1
        (tr0 ++ (send s0 cmd options flags).2) s tr (by omega) hrun
      rw [hsl] at hmin htr
      refine ⟨by rw [hcl]; exact hmin, ?_⟩
      intro hlt
      rw [hcl] at hlt
      rw [htr hlt, send_quiet s0 cmd options flags (by omega), List.append_nil]
    | line l =>
      rw [runFrom] at hrun
      simp only [step] at hrun
      cases hh : handleLine s0 l with
      | none => rw [hh] at hrun; cases hrun
      | some res =>
        obtain ⟨s1, outs⟩ := res
        rw [hh] at hrun
        have hcl : countLines (Event.line l :: evs) = countLines evs + 1 := by
          simp [countLines]
        by_cases hlt : s0.statusLines < 2
        · simp only [handleLine, if_pos hlt] at hh
          by_cases he : s0.statusLines + 1 = 2
          · rw [if_pos he] at hh
            rcases hq : checkQueue { s0 with statusLines := s0.statusLines + 1 } with ⟨s2, o2⟩
            rw [hq] at hh
            injection hh with h1
            injection h1 with ha hb
            subst ha
            subst hb
            have hsl : s2.statusLines = s0.statusLines + 1 := by
              have hcs := checkQueue_statusLines { s0 with statusLines := s0.statusLines + 1 }
              rw [hq] at hcs
              exact hcs
            obtain ⟨hmin, htr⟩ := ih s2 (tr0 ++ o2) s tr (by omega) hrun
            constructor
            · rw [hcl, hmin, hsl]; omega
            · intro hbad
              rw [hcl] at hbad
              omega
          · rw [if_neg he] at hh
            injection hh with h1
            injection h1 with ha hb
            subst ha
            subst hb
            obtain ⟨hmin, htr⟩ := ih _ _ s tr (by show s0.statusLines + 1 ≤ 2; omega) hrun
            have hmin2 : s.statusLines = min (s0.statusLines + 1 + countLines evs) 2 := hmin
            have htr2 : s0.statusLines + 1 + countLines evs < 2 → tr = tr0 ++ [] := htr
            constructor
            · rw [hcl]; omega
            · intro hbad
              rw [hcl] at hbad
              rw [htr2 (by omega), List.append_nil]
        · have hsl := handleLine_ready_statusLines s0 l s1 outs hlt hh
          obtain ⟨hmin, htr⟩ := ih _ _ s tr (by omega) hrun
          rw [hsl] at hmin
          constructor
          · rw [hcl, hmin]; omega
          · intro hbad
            rw [hcl] at hbad
            omega

/-- C4: (a) along any crash-free run the banner counter of the final state
equals the number of lines processed, capped at two — so the Ready phase
(counter 2) is reached exactly at the second line and never left — and while
fewer than two lines have been processed the trace is empty, so in
particular no queued command has been written to the transport; (b) before
the second banner line the line handler ignores the content of the line
entirely (its result does not depend on the line), so the first two lines
are never parsed as protocol lines. -/
theorem banner_gating :
    (∀ (evs : List Event) (s : QueryState) (tr : List Output),
      run evs = some (s, tr) →
      s.statusLines = min (countLines evs) 2 ∧ (countLines evs < 2 → tr = [])) ∧
    (∀ (s : QueryState) (l l' : List Char), s.statusLines < 2 →
      handleLine s l = handleLine s l') := by
  constructor
  · intro evs s tr hrun
    have h := runFrom_phase evs initState [] s tr (by decide) hrun
    simpa [initState] using h
  · intro s l l' hlt
    rw [handleLine, handleLine, if_pos hlt, if_pos hlt]

/-- Witness for `banner_gating`: a single line yields counter 1 and an empty
trace, and before the second banner line the handler treats two different
lines identically. -/
theorem banner_gating_witness :
    (run [Event.line ("x".data)] = some (⟨[], none, 1, 0⟩, []) ∧
      ((⟨[], none, 1, 0⟩ : QueryState).statusLines = min (countLines [Event.line ("x".data)]) 2 ∧
        (countLines [Event.line ("x".data)] < 2 → ([] : List Output) = []))) ∧
    ((⟨[], none, 0, 0⟩ : QueryState).statusLines < 2 ∧
      handleLine ⟨[], none, 0, 0⟩ ("error id=0".data)
        = handleLine ⟨[], none, 0, 0⟩ ("x".data)) :=
  ⟨⟨by decide, banner_gating.1 [Event.line ("x".data)] ⟨[], none, 1, 0⟩ [] (by decide)⟩,
    ⟨by decide, banner_gating.2 ⟨[], none, 0, 0⟩ ("error id=0".data) ("x".data) (by decide)⟩⟩

/-! ## Claim C7 -/

/-- A data line (parsed, untagged) while a command is in flight only
replaces the command's accumulated data; no output is produced. -/
lemma handleLine_data (s : QueryState) (p : Pending) (l : List Char) (r : Response)
    (h2 : ¬s.statusLines < 2) (hc : s.current = some p)
    (hp : parse (jsTrim l) = some r) (ht : r.type = none) :
    handleLine s l
      = some ({ s with current := some { p with data := some r.params } }, []) := by
  obtain ⟨ty, ps⟩ := r
  simp only at ht
  subst ht
  rw [handleLine, if_neg h2]
  simp only [hp, dataLineStep, hc, checkQueue]

/-- A success terminator while a command is in flight resolves it with the
accumulated data (falling back to the terminator's fields), clears the
current reference and re-checks the queue. -/
lemma handleLine_error_resolve (s : QueryState) (p : Pending) (l : List Char) (ps : Params)
    (h2 : ¬s.statusLines < 2) (hc : s.current = some p)
    (hp : parse (jsTrim l) = some ⟨some ['e', 'r', 'r', 'o', 'r'], ps⟩)
    (hz : jsEqZero (lookupParam ps ['i', 'd']) = true) :
    handleLine s l = some ((checkQueue { s with current := none }).1,
      Output.resolve p.id (p.data.getD ps) :: (checkQueue { s with current := none }).2) := by
  rw [handleLine, if_neg h2]
  simp only [hp]
  rw [if_neg (by decide)]
  simp only [if_true]
  simp only [hc]
  rw [if_pos hz]

/-- Splitting a run at an event-list concatenation. -/
lemma runFrom_append (evs1 evs2 : List Event) : ∀ (s : QueryState) (tr : List Output),
    runFrom s tr (evs1 ++ evs2) =
      match runFrom s tr evs1 with
      | some (s1, tr1) => runFrom s1 tr1 evs2
      | none => none := by
  induction evs1 with
  | nil => intro s tr; rfl
  | cons e t ih =>
    intro s tr
    rw [List.cons_append, runFrom, runFrom]
    cases hst : step s e with
    | none => rfl
    | some res =>
      obtain ⟨s1, outs⟩ := res
      exact ih s1 (tr ++ outs)

/-- Folding over a list with a constant-overwrite function yields the last
element when there is one. -/
lemma foldl_some_getLast {α : Type} (qs : List α) : ∀ x : Option α,
    qs.foldl (fun _ q => some q) x =
      match qs.getLast? with
      | some q => some q
      | none => x := by
  induction qs with
  | nil => intro x; rfl
  | cons q qt ih =>
    intro x
    rw [List.foldl_cons, ih]
    cases qt with
    | nil => rfl
    | cons q2 qt2 =>
      rw [List.getLast?_cons_cons]
      cases hgl : (q2 :: qt2).getLast? with
      | none => simp [List.getLast?] at hgl
      | some q3 => rfl

/-- Processing a run of data lines while a command is in flight leaves the
queue, trace and phase untouched and ends with the command's accumulated
data overwritten by each line in turn. -/
lemma runFrom_dataLines (ds : List (List Char)) : ∀ (qs : List Params) (s : QueryState)
    (p : Pending) (tr : List Output), ¬s.statusLines < 2 → s.current = some p →
    ds.length = qs.length →
    (∀ pr ∈ ds.zip qs, parse (jsTrim pr.1) = some ⟨none, pr.2⟩) →
    runFrom s tr (ds.map Event.line) =
      some ({ s with current := some { p with data := qs.foldl (fun _ q => some q) p.data } }, tr) := by
  induction ds with
  | nil =>
    intro qs s p tr h2 hc hlen hall
    have hq : qs = [] := by
      cases qs with
      | nil => rfl
      | cons a b => simp at hlen
    subst hq
    obtain ⟨qq, cc, sl, ni⟩ := s
    simp only at hc
    subst hc
    rfl
  | cons d dt ih =>
    intro qs s p tr h2 hc hlen hall
    cases qs with
    | nil => simp at hlen
    | cons q qt =>
      simp only [List.map_cons, runFrom, step]
      rw [handleLine_data s p d ⟨none, q⟩ h2 hc (hall (d, q) (by simp)) rfl]
      simp only [List.append_nil]
      have hres := ih qt { s with current := some { p with data := some q } }
        { p with data := some q } tr
        (by show ¬s.statusLines < 2; exact h2) rfl (by simpa using hlen)
        (fun pr hpr => hall pr (by simp [List.zip_cons_cons]; right; simpa using hpr))
      rw [hres]
      rfl

/-- C7: (a) while a command is in flight, each untagged data line replaces
the command's accumulated data with its own fields and produces no output;
(b) for every nonempty run of data lines followed by a success terminator
(loosely-zero id), the in-flight command is resolved with the fields of the
last data line, not with the terminator's fields. -/
theorem data_overwrite_resolution :
    (∀ (s : QueryState) (p : Pending) (l : List Char) (r : Response),
      ¬s.statusLines < 2 → s.current = some p →
      parse (jsTrim l) = some r → r.type = none →
      handleLine s l
        = some ({ s with current := some { p with data := some r.params } }, [])) ∧
    (∀ (s : QueryState) (p : Pending) (ds : List (List Char)) (qs : List Params)
      (term : List Char) (tps : Params) (qlast : Params),
      ¬s.statusLines < 2 → s.current = some p →
      ds.length = qs.length → qs.getLast? = some qlast →
      (∀ pr ∈ ds.zip qs, parse (jsTrim pr.1) = some ⟨none, pr.2⟩) →
      parse (jsTrim term) = some ⟨some ['e', 'r', 'r', 'o', 'r'], tps⟩ →
      jsEqZero (lookupParam tps ['i', 'd']) = true →
      ∃ (s1 : QueryState) (rest : List Output),
        runFrom s [] ((ds ++ [term]).map Event.line)
          = some (s1, Output.resolve p.id qlast :: rest)) := by
  constructor
  · exact handleLine_data
  · intro s p ds qs term tps qlast h2 hc hlen hq hall hterm hz
    rw [List.map_append, runFrom_append]
    rw [runFrom_dataLines ds qs s p [] h2 hc hlen hall]
    have hfold : qs.foldl (fun _ q => some q) p.data = some qlast := by
      rw [foldl_some_getLast, hq]
    have hstep := handleLine_error_resolve
      { s with current := some { p with data := qs.foldl (fun _ q => some q) p.data } }
      { p with data := qs.foldl (fun _ q => some q) p.data }
      term tps (by show ¬s.statusLines < 2; exact h2) rfl hterm hz
    refine ⟨(checkQueue { s with current := none }).1,
      (checkQueue { s with current := none }).2, ?_⟩
    rw [hfold] at hstep
    simp only [List.map_cons, List.map_nil, runFrom, step, hfold]
    simp only [hstep, List.nil_append, Option.getD_some]

/-- Witness for `data_overwrite_resolution`: part (a) at the concrete data
line b=7, and part (b) at two data lines followed by a success terminator,
checking the resolution carries the second data line's fields. -/
theorem data_overwrite_resolution_witness :
    ((¬(⟨[], some ⟨0, "whoami".data, none⟩, 2, 1⟩ : QueryState).statusLines < 2 ∧
        parse (jsTrim ("b=7".data)) = some ⟨none, [("b".data, PValue.str ("7".data))]⟩) ∧
      handleLine (⟨[], some ⟨0, "whoami".data, none⟩, 2, 1⟩ : QueryState) ("b=7".data)
        = some (⟨[], some ⟨0, "whoami".data,
            some [("b".data, PValue.str ("7".data))]⟩, 2, 1⟩, [])) ∧
    (∃ (s1 : QueryState) (rest : List Output),
      runFrom (⟨[], some ⟨0, "whoami".data, none⟩, 2, 1⟩ : QueryState) []
          ((["b=1".data, "b=2".data] ++ ["error id=0".data]).map Event.line)
        = some (s1, Output.resolve 0 [("b".data, PValue.str ("2".data))] :: rest)) :=
  ⟨⟨⟨by decide, by decide⟩,
    data_overwrite_resolution.1 ⟨[], some ⟨0, "whoami".data, none⟩, 2, 1⟩
      ⟨0, "whoami".data, none⟩ ("b=7".data) ⟨none, [("b".data, PValue.str ("7".data))]⟩
      (by decide) (by decide) (by decide) (by decide)⟩,
    data_overwrite_resolution.2 ⟨[], some ⟨0, "whoami".data, none⟩, 2, 1⟩
      ⟨0, "whoami".data, none⟩ ["b=1".data, "b=2".data]
      [[("b".data, PValue.str ("1".data))], [("b".data, PValue.str ("2".data))]]
      ("error id=0".data) [("id".data, PValue.str ("0".data))]
      [("b".data, PValue.str ("2".data))]
      (by decide) (by decide) (by decide) (by decide) (by decide) (by decide) (by decide)⟩

/-! ## Claim C2 -/

lemma writeIds_append (a b : List Output) :
    writeIds (a ++ b) = writeIds a ++ writeIds b :=
  List.filterMap_append a b _

lemma settleIds_append (a b : List Output) :
    settleIds (a ++ b) = settleIds a ++ settleIds b :=
  List.filterMap_append a b _

/-- The serialization invariant: commands are written to the socket with
consecutive ghost ids starting at 0, settled in the same consecutive order,
at most one id is written-but-unsettled at any time (exactly when a command
is current, and then the current command carries that id), the queued
commands hold the ids following the written ones in order, and the ghost
counter sits past all of them. -/
def QInv (s : QueryState) (tr : List Output) : Prop :=
  writeIds tr = List.range (writeIds tr).length ∧
  settleIds tr = List.range (settleIds tr).length ∧
  ((s.current = none ∧ (writeIds tr).length = (settleIds tr).length) ∨
    (∃ p, s.current = some p ∧ p.id = (settleIds tr).length ∧
      (writeIds tr).length = (settleIds tr).length + 1)) ∧
  s.queue.map Pending.id = List.range' (writeIds tr).length s.queue.length ∧
  s.nextId = (writeIds tr).length + s.queue.length

/-- The invariant does not mention the banner counter. -/
lemma QInv_statusLines (s : QueryState) (tr : List Output) (n : Nat) (h : QInv s tr) :
    QInv { s with statusLines := n } tr := h

/-- The invariant only depends on the trace through its write and settle
ids. -/
lemma QInv_congr (s : QueryState) (tr tr2 : List Output) (h : QInv s tr)
    (hw : writeIds tr2 = writeIds tr) (hs : settleIds tr2 = settleIds tr) :
    QInv s tr2 := by
  obtain ⟨h1, h2, h3, h4, h5⟩ := h
  exact ⟨by rw [hw]; exact h1, by rw [hs]; exact h2, by rw [hw, hs]; exact h3,
    by rw [hw]; exact h4, by rw [hw]; exact h5⟩

lemma checkQueue_inv (s : QueryState) (tr : List Output) (h : QInv s tr) :
    QInv (checkQueue s).1 (tr ++ (checkQueue s).2) := by
  obtain ⟨h1, h2, h3, h4, h5⟩ := h
  cases hc : s.current with
  | some p =>
    have hcq : checkQueue s = (s, []) := by
      rw [checkQueue, hc]
    rw [hcq, List.append_nil]
    exact ⟨h1, h2, h3, h4, h5⟩
  | none =>
    cases hqq : s.queue with
    | nil =>
      have hcq : checkQueue s = (s, []) := by
        rw [checkQueue, hc, hqq]
      rw [hcq, List.append_nil]
      exact ⟨h1, h2, h3, h4, h5⟩
    | cons c rest =>
      have hcq : checkQueue s =
          ({ s with current := some c, queue := rest },
            [Output.write c.id (c.cmd ++ ['\n'])]) := by
        rw [checkQueue, hc, hqq]
      rw [hcq]
      have hwk : (writeIds tr).length = (settleIds tr).length := by
        rcases h3 with ⟨_, he⟩ | ⟨p, hp, _, _⟩
        · exact he
        · rw [hc] at hp; cases hp
      rw [hqq] at h4 h5
      rw [List.map_cons, List.length_cons, List.range'_succ] at h4
      injection h4 with hcid hrest
      have hwtr : writeIds (tr ++ [Output.write c.id (c.cmd ++ ['\n'])])
          = writeIds tr ++ [c.id] := by
        rw [writeIds_append]; rfl
      have hstr : settleIds (tr ++ [Output.write c.id (c.cmd ++ ['\n'])]) = settleIds tr := by
        rw [settleIds_append]
        exact List.append_nil _
      refine ⟨?_, ?_, ?_, ?_, ?_⟩
      · rw [hwtr, hcid, List.length_append, List.length_singleton, h1,
          List.length_range, ← List.range_succ]
      · rw [hstr]; exact h2
      · refine Or.inr ⟨c, rfl, ?_, ?_⟩
        · rw [hstr, hcid, hwk]
        · rw [hwtr, hstr, List.length_append, List.length_singleton, hwk]
      · show rest.map Pending.id
            = List.range' (writeIds (tr ++ [Output.write c.id (c.cmd ++ ['\n'])])).length
              rest.length
        rw [hwtr, List.length_append, List.length_singleton]
        exact hrest
      · show s.nextId
            = (writeIds (tr ++ [Output.write c.id (c.cmd ++ ['\n'])])).length + rest.length
        rw [hwtr, List.length_append, List.length_singleton]
        simp only [List.length_cons] at h5
        omega

lemma send_inv (s : QueryState) (tr : List Output) (cmd : List Char)
    (options : SendOptions) (flags : List (List Char)) (h : QInv s tr) :
    QInv (send s cmd options flags).1 (tr ++ (send s cmd options flags).2) := by
  have h1 : QInv { s with queue := s.queue ++ [{ id := s.nextId, cmd := buildCmd cmd options flags, data := none }], nextId := s.nextId + 1 } tr := by
    obtain ⟨hw, hs, hcur, hq, hn⟩ := h
    refine ⟨hw, hs, hcur, ?_, ?_⟩
    · show (s.queue ++ [({ id := s.nextId, cmd := buildCmd cmd options flags, data := none } : Pending)]).map Pending.id = _
      rw [List.map_append, hq, List.map_cons, List.map_nil, List.length_append,
        List.length_singleton, List.range'_1_concat, hn]
    · show s.nextId + 1 = _
      rw [List.length_append, List.length_singleton]
      omega
  simp only [send]
  split
  · exact checkQueue_inv _ tr h1
  · rw [List.append_nil]
    exact h1

lemma writeIds_cons_emit (n : List Char) (ps : Params) (ln : List Char) (tr : List Output) :
    writeIds (Output.emit n ps ln :: tr) = writeIds tr := rfl

lemma settleIds_cons_emit (n : List Char) (ps : Params) (ln : List Char) (tr : List Output) :
    settleIds (Output.emit n ps ln :: tr) = settleIds tr := rfl

lemma dataLineStep_inv (s : QueryState) (tr : List Output) (r : Response) (h : QInv s tr) :
    QInv (dataLineStep s r).1 (tr ++ (dataLineStep s r).2) := by
  rw [dataLineStep]
  cases hc : s.current with
  | none => exact checkQueue_inv s tr h
  | some p =>
    apply checkQueue_inv
    obtain ⟨h1, h2, h3, h4, h5⟩ := h
    refine ⟨h1, h2, ?_, h4, h5⟩
    rcases h3 with ⟨hn, _⟩ | ⟨q, hq, hid, hw⟩
    · rw [hc] at hn; cases hn
    · rw [hc] at hq
      injection hq with hq
      subst hq
      exact Or.inr ⟨{ p with data := some r.params }, rfl, hid, hw⟩

lemma handleLine_inv (s : QueryState) (tr : List Output) (l : List Char)
    (s1 : QueryState) (outs : List Output) (h : QInv s tr)
    (hh : handleLine s l = some (s1, outs)) : QInv s1 (tr ++ outs) := by
  by_cases hlt : s.statusLines < 2
  · simp only [handleLine, if_pos hlt] at hh
    by_cases he : s.statusLines + 1 = 2
    · rw [if_pos he] at hh
      rcases hq2 : checkQueue { s with statusLines := s.statusLines + 1 } with ⟨s2, o2⟩
      rw [hq2] at hh
      injection hh with hh1
      injection hh1 with ha hb
      subst ha
      subst hb
      have h2 := checkQueue_inv { s with statusLines := s.statusLines + 1 } tr
        (QInv_statusLines s tr (s.statusLines + 1) h)
      rw [hq2] at h2
      exact h2
    · rw [if_neg he] at hh
      injection hh with hh1
      injection hh1 with ha hb
      subst ha
      subst hb
      rw [List.append_nil]
      exact QInv_statusLines s tr (s.statusLines + 1) h
  · rw [handleLine, if_neg hlt] at hh
    cases hp : parse (jsTrim l) with
    | none =>
      simp only [hp] at hh
      injection hh with hh1
      have ha : s = s1 := congrArg Prod.fst hh1
      have hb : ([] : List Output) = outs := congrArg Prod.snd hh1
      rw [← ha, ← hb, List.append_nil]
      exact h
    | some r =>
      obtain ⟨ty, ps⟩ := r
      simp only [hp] at hh
      cases ty with
      | none =>
        injection hh with hh1
        have ha : (dataLineStep s ⟨none, ps⟩).1 = s1 := congrArg Prod.fst hh1
        have hb : (dataLineStep s ⟨none, ps⟩).2 = outs := congrArg Prod.snd hh1
        rw [← ha, ← hb]
        exact dataLineStep_inv s tr ⟨none, ps⟩ h
      | some t =>
        simp only at hh
        by_cases hn : List.isPrefixOf ['n', 'o', 't', 'i', 'f', 'y'] t = true
        · rw [if_pos hn] at hh
          injection hh with hh1
          have ha : (checkQueue s).1 = s1 := congrArg Prod.fst hh1
          have hb : Output.emit (t.drop 6) ps (jsTrim l) :: (checkQueue s).2 = outs :=
            congrArg Prod.snd hh1
          rw [← ha, ← hb]
          refine QInv_congr _ _ _ (checkQueue_inv s tr h) ?_ ?_
          · rw [writeIds_append, writeIds_append, writeIds_cons_emit]
          · rw [settleIds_append, settleIds_append, settleIds_cons_emit]
        · rw [if_neg hn] at hh
          by_cases he : t = ['e', 'r', 'r', 'o', 'r']
          · rw [if_pos he] at hh
            cases hc : s.current with
            | none => rw [hc] at hh; exact Option.noConfusion hh
            | some p =>
              rw [hc] at hh
              injection hh with hh1
              have ha : (checkQueue { s with current := none }).1 = s1 :=
                congrArg Prod.fst hh1
              have hb : (if jsEqZero (lookupParam ps ['i', 'd']) then
                    Output.resolve p.id (p.data.getD ps)
                  else Output.reject p.id ps) :: (checkQueue { s with current := none }).2
                  = outs := congrArg Prod.snd hh1
              rw [← ha, ← hb]
              obtain ⟨h1, h2, h3, h4, h5⟩ := h
              rcases h3 with ⟨hcn, _⟩ | ⟨q, hq, hid, hwl⟩
              · rw [hc] at hcn; cases hcn
              rw [hc] at hq
              injection hq with hq
              subst hq
              have hsid : settleIds (tr ++ [if jsEqZero (lookupParam ps ['i', 'd']) then
                    Output.resolve p.id (p.data.getD ps) else Output.reject p.id ps])
                  = settleIds tr ++ [p.id] := by
                rw [settleIds_append]
                by_cases hz : jsEqZero (lookupParam ps ['i', 'd']) = true
                · rw [if_pos hz]
                  rfl
                · rw [if_neg hz]
                  rfl
              have hwid : writeIds (tr ++ [if jsEqZero (lookupParam ps ['i', 'd']) then
                    Output.resolve p.id (p.data.getD ps) else Output.reject p.id ps])
                  = writeIds tr := by
                rw [writeIds_append]
                by_cases hz : jsEqZero (lookupParam ps ['i', 'd']) = true
                · rw [if_pos hz]
                  exact List.append_nil _
                · rw [if_neg hz]
                  exact List.append_nil _
              have hmid : QInv { s with current := none }
                  (tr ++ [if jsEqZero (lookupParam ps ['i', 'd']) then
                    Output.resolve p.id (p.data.getD ps) else Output.reject p.id ps]) := by
                refine ⟨?_, ?_, ?_, ?_, ?_⟩
                · rw [hwid]
                  exact h1
                · rw [hsid, hid, List.length_append, List.length_singleton, h2,
                    List.length_range, ← List.range_succ]
                · refine Or.inl ⟨rfl, ?_⟩
                  rw [hwid, hsid, List.length_append, List.length_singleton]
                  omega
                · show s.queue.map Pending.id = _
                  rw [hwid]
                  exact h4
                · show s.nextId = _
                  rw [hwid]
                  exact h5
              have hfin := checkQueue_inv { s with current := none } _ hmid
              have htr : tr ++ ((if jsEqZero (lookupParam ps ['i', 'd']) then
                    Output.resolve p.id (p.data.getD ps) else Output.reject p.id ps)
                    :: (checkQueue { s with current := none }).2)
                  = (tr ++ [if jsEqZero (lookupParam ps ['i', 'd']) then
                    Output.resolve p.id (p.data.getD ps) else Output.reject p.id ps])
                    ++ (checkQueue { s with current := none }).2 := by
                rw [List.append_assoc]
                rfl
              rw [htr]
              exact hfin
          · rw [if_neg he] at hh
            injection hh with hh1
            have ha : (dataLineStep s ⟨some t, ps⟩).1 = s1 := congrArg Prod.fst hh1
            have hb : (dataLineStep s ⟨some t, ps⟩).2 = outs := congrArg Prod.snd hh1
            rw [← ha, ← hb]
            exact dataLineStep_inv s tr ⟨some t, ps⟩ h

lemma checkQueue_nextId (s : QueryState) : (checkQueue s).1.nextId = s.nextId := by
  unfold checkQueue
  split <;> rfl

lemma dataLineStep_nextId (s : QueryState) (r : Response) :
    (dataLineStep s r).1.nextId = s.nextId := by
  unfold dataLineStep
  split <;> rw [checkQueue_nextId]

lemma send_nextId (s : QueryState) (cmd : List Char) (options : SendOptions)
    (flags : List (List Char)) : (send s cmd options flags).1.nextId = s.nextId + 1 := by
  simp only [send]
  split
  · rw [checkQueue_nextId]
  · rfl

lemma handleLine_nextId (s : QueryState) (l : List Char) (s1 : QueryState)
    (outs : List Output) (hh : handleLine s l = some (s1, outs)) :
    s1.nextId = s.nextId := by
  by_cases hlt : s.statusLines < 2
  · simp only [handleLine, if_pos hlt] at hh
    by_cases he : s.statusLines + 1 = 2
    · rw [if_pos he] at hh
      rcases hq2 : checkQueue { s with statusLines := s.statusLines + 1 } with ⟨s2, o2⟩
      rw [hq2] at hh
      injection hh with hh1
      injection hh1 with ha hb
      subst ha
      have hcq := checkQueue_nextId { s with statusLines := s.statusLines + 1 }
      rw [hq2] at hcq
      exact hcq
    · rw [if_neg he] at hh
      injection hh with hh1
      injection hh1 with ha hb
      subst ha
      rfl
  · rw [handleLine, if_neg hlt] at hh
    cases hp : parse (jsTrim l) with
    | none =>
      simp only [hp] at hh
      injection hh with hh1
      have ha : s = s1 := congrArg Prod.fst hh1
      rw [← ha]
    | some r =>
      obtain ⟨ty, ps⟩ := r
      simp only [hp] at hh
      cases ty with
      | none =>
        injection hh with hh1
        have ha : (dataLineStep s ⟨none, ps⟩).1 = s1 := congrArg Prod.fst hh1
        rw [← ha, dataLineStep_nextId]
      | some t =>
        simp only at hh
        by_cases hn : List.isPrefixOf ['n', 'o', 't', 'i', 'f', 'y'] t = true
        · rw [if_pos hn] at hh
          injection hh with hh1
          have ha : (checkQueue s).1 = s1 := congrArg Prod.fst hh1
          rw [← ha, checkQueue_nextId]
        · rw [if_neg hn] at hh
          by_cases he : t = ['e', 'r', 'r', 'o', 'r']
          · rw [if_pos he] at hh
            cases hc : s.current with
            | none => rw [hc] at hh; exact Option.noConfusion hh
            | some p =>
              rw [hc] at hh
              injection hh with hh1
              have ha : (checkQueue { s with current := none }).1 = s1 :=
                congrArg Prod.fst hh1
              rw [← ha, checkQueue_nextId]
          · rw [if_neg he] at hh
            injection hh with hh1
            have ha : (dataLineStep s ⟨some t, ps⟩).1 = s1 := congrArg Prod.fst hh1
            rw [← ha, dataLineStep_nextId]

lemma runFrom_inv (evs : List Event) : ∀ (s : QueryState) (tr : List Output)
    (s1 : QueryState) (tr1 : List Output), QInv s tr →
    runFrom s tr evs = some (s1, tr1) →
    QInv s1 tr1 ∧ s1.nextId = s.nextId + countSubmits evs := by
  induction evs with
  | nil =>
    intro s tr s1 tr1 h hrun
    injection hrun with h1
    have ha : s = s1 := congrArg Prod.fst h1
    have hb : tr = tr1 := congrArg Prod.snd h1
    constructor
    · rw [← ha, ← hb]
      exact h
    · rw [← ha]
      simp [countSubmits]
  | cons e evs ih =>
    intro s tr s1 tr1 h hrun
    rw [runFrom] at hrun
    cases hst : step s e with
    | none => rw [hst] at hrun; exact Option.noConfusion hrun
    | some res =>
      obtain ⟨s2, o2⟩ := res
      rw [hst] at hrun
      have hq : QInv s2 (tr ++ o2) := by
        cases e with
        | submit cmd options flags =>
          simp only [step] at hst
          injection hst with h1
          have ha : (send s cmd options flags).1 = s2 := congrArg Prod.fst h1
          have hb : (send s cmd options flags).2 = o2 := congrArg Prod.snd h1
          rw [← ha, ← hb]
          exact send_inv s tr cmd options flags h
        | line l => exact handleLine_inv s tr l s2 o2 h hst
      obtain ⟨hfin, hnext⟩ := ih s2 (tr ++ o2) s1 tr1 hq hrun
      refine ⟨hfin, ?_⟩
      have hn2 : s2.nextId = s.nextId + countSubmits [e] := by
        cases e with
        | submit cmd options flags =>
          simp only [step] at hst
          injection hst with h1
          have ha : (send s cmd options flags).1 = s2 := congrArg Prod.fst h1
          rw [← ha, send_nextId]
          simp [countSubmits]
        | line l =>
          rw [handleLine_nextId s l s2 o2 hst]
          simp [countSubmits]
      rw [hnext, hn2]
      cases e <;> (simp [countSubmits, List.filter_cons]; try omega)

/-- C2: along every crash-free run from the freshly constructed client, the
written commands carry the ghost ids 0, 1, 2, ... in exactly that order, the
settled promises carry an initial segment of the same ids in exactly that
order (each settled once), and the number of written commands never exceeds
the number of settled ones by more than one — so at most one command is ever
in flight (written but not yet terminated).  Ghost ids are handed out
sequentially at submission (the final counter equals the number of
submissions), so settlement order is exactly submission order: strict FIFO.
Since this holds for every event list, it holds at every prefix of a run,
i.e. at all times. -/
theorem one_in_flight_fifo (evs : List Event) (s : QueryState) (tr : List Output)
    (h : run evs = some (s, tr)) :
    settleIds tr = List.range (settleIds tr).length ∧
    writeIds tr = List.range (writeIds tr).length ∧
    (writeIds tr).length ≤ (settleIds tr).length + 1 ∧
    s.nextId = countSubmits evs := by
  have hinit : QInv initState [] := ⟨rfl, rfl, Or.inl ⟨rfl, rfl⟩, rfl, rfl⟩
  obtain ⟨hinv, hnext⟩ := runFrom_inv evs initState [] s tr hinit h
  obtain ⟨h1, h2, h3, h4, h5⟩ := hinv
  refine ⟨h2, h1, ?_, by rw [hnext, show initState.nextId = 0 from rfl, Nat.zero_add]⟩
  rcases h3 with ⟨_, he⟩ | ⟨p, _, _, he⟩ <;> omega

/-- Witness for `one_in_flight_fifo`: one submission during the banner, two
banner lines (the second dispatches the command), then a success
terminator. -/
theorem one_in_flight_fifo_witness :
    run [Event.submit ("a".data) SendOptions.none [], Event.line ("x".data),
        Event.line ("y".data), Event.line ("error id=0".data)]
      = some (⟨[], none, 2, 1⟩,
          [Output.write 0 ("a\n".data),
            Output.resolve 0 [("id".data, PValue.str ("0".data))]]) ∧
    (settleIds [Output.write 0 ("a\n".data),
        Output.resolve 0 [("id".data, PValue.str ("0".data))]]
      = List.range (settleIds [Output.write 0 ("a\n".data),
          Output.resolve 0 [("id".data, PValue.str ("0".data))]]).length ∧
    writeIds [Output.write 0 ("a\n".data),
        Output.resolve 0 [("id".data, PValue.str ("0".data))]]
      = List.range (writeIds [Output.write 0 ("a\n".data),
          Output.resolve 0 [("id".data, PValue.str ("0".data))]]).length ∧
    (writeIds [Output.write 0 ("a\n".data),
        Output.resolve 0 [("id".data, PValue.str ("0".data))]]).length
      ≤ (settleIds [Output.write 0 ("a\n".data),
          Output.resolve 0 [("id".data, PValue.str ("0".data))]]).length + 1 ∧
    (⟨[], none, 2, 1⟩ : QueryState).nextId
      = countSubmits [Event.submit ("a".data) SendOptions.none [],
          Event.line ("x".data), Event.line ("y".data),
          Event.line ("error id=0".data)]) :=
  ⟨by decide,
    one_in_flight_fifo
      [Event.submit ("a".data) SendOptions.none [], Event.line ("x".data),
        Event.line ("y".data), Event.line ("error id=0".data)]
      ⟨[], none, 2, 1⟩
      [Output.write 0 ("a\n".data), Output.resolve 0 [("id".data, PValue.str ("0".data))]]
      (by decide)⟩

end TeamspeakQuery
